import Mathlib

/-!
Verification of the macro-atom module: the `MacroAtom` tree-node class, the
`reloadParentsMacros` ancestor reconciliation walk, and the
`extractArgumentsWithOrder` template matcher.

Strings are modelled as explicit character lists (`Str`).  The JavaScript
regular-expression machinery used by `extractArgumentsWithOrder` only ever
builds patterns of a restricted shape: an anchored alternation-free sequence
of literal (escaped) characters and non-greedy `(.*?)` capture groups.  The
matcher for that dialect is modelled directly (`matchPieces`): backtracking
tries the shortest capture for the leftmost group first, and `.` matches any
character except a line terminator.
-/

set_option maxRecDepth 4096

/-- Strings are modelled as explicit character lists. -/
abbrev Str := List Char

/-- Modelled from the spec: the external `Style` type (`public/core-types`) is a
record of optional style attributes; a representative set of attributes is
included (foreground color, background color, and several non-color
attributes such as the font weight used in the spec's example). -/
structure Style where
  color : Option Str := none
  backgroundColor : Option Str := none
  fontWeight : Option Str := none
  fontFamily : Option Str := none
  fontShape : Option Str := none
  fontSeries : Option Str := none
  variant : Option Str := none
  deriving DecidableEq

/-- Modelled from the spec: the export options record (`ToLatexOptions`) with
the two fields this module reads or sets: the expansion request flag and the
default mode. -/
structure ToLatexOptions where
  expandMacro : Bool
  defaultMode : Str
  deriving DecidableEq

/-- JavaScript truthiness of a nullable string: `null`/`undefined` and the
empty string are falsy. -/
def strOptTruthy : Option Str → Bool
  | none => false
  | some s => !s.isEmpty

/-- The JavaScript `String.prototype.trim` whitespace set: WhiteSpace and
LineTerminator code points. -/
def isJsWhitespace (c : Char) : Bool :=
  ([' ', '\t', '\n', '\x0b', '\x0c', '\r', ' ', ' ', ' ',
    ' ', ' ', ' ', ' ', ' ', ' ', ' ',
    ' ', ' ', ' ', ' ', ' ', ' ', ' ',
    '　', '﻿'] : List Char).contains c

/-- `String.prototype.trim`: drop whitespace from both ends. -/
def trim (s : Str) : Str :=
  ((s.dropWhile isJsWhitespace).reverse.dropWhile isJsWhitespace).reverse

/-- One element of the compiled pattern: a literal character or a non-greedy
`(.*?)` capture group. -/
inductive Piece where
  | lit (c : Char)
  | group
  deriving DecidableEq

/-- JavaScript `.` (without the `s` flag) matches any character except a
LineTerminator. -/
def isLineTerminator (c : Char) : Bool :=
  (['\n', '\r', ' ', ' '] : List Char).contains c

/-- All splits of a string into prefix and suffix, shortest prefix first:
the order in which a backtracking non-greedy group tries its captures. -/
def splitsOf : Str → List (Str × Str)
  | [] => [([], [])]
  | c :: s => ([], c :: s) :: (splitsOf s).map (fun pr => (c :: pr.1, pr.2))

/-- Matcher for the compiled pattern, anchored at both ends: the whole input
must be consumed.  On success it returns the list of group captures in
group order.  The `fuel` argument is structural bookkeeping only: one unit
is consumed per pattern piece, so `fuel = ps.length` (as supplied by
`matchPieces`) always suffices and the `0` branch on a non-empty pattern is
never reached from `matchPieces`. -/
def matchGo : Nat → List Piece → Str → Option (List Str)
  | 0 => fun ps s =>
      match ps with
      | [] => if s = [] then some [] else none
      | _ :: _ => none
  | fuel + 1 => fun ps s =>
      match ps with
      | [] => if s = [] then some [] else none
      | .lit c :: ps' =>
          match s with
          | [] => none
          | c' :: s' => if c' = c then matchGo fuel ps' s' else none
      | .group :: ps' =>
          (splitsOf s).findSome? fun pr =>
            if pr.1.any isLineTerminator then none
            else (matchGo fuel ps' pr.2).map (fun caps => pr.1 :: caps)

/-- Match an anchored piece sequence against a string (the model of
`inputString.match(new RegExp(String.raw, with anchors))`). -/
def matchPieces (ps : List Piece) (s : Str) : Option (List Str) :=
  matchGo ps.length ps s

/-- The characters escaped by the template escaping step
(`template.replace` of every regex metacharacter). -/
def regexSpecialChars : List Char :=
  ['.', '*', '+', '?', '^', '$', '{', '}', '(', ')', '|', '[', ']', '\\']

/-- Escape every regex metacharacter of the template by prefixing a
backslash, as the source's first `replace` does. -/
def escapeRegExp : Str → Str
  | [] => []
  | c :: t =>
      if regexSpecialChars.contains c then '\\' :: c :: escapeRegExp t
      else c :: escapeRegExp t

/-- Worker for `findPlaceholders` (fuel-structural; one unit per character
position, so `fuel = s.length` always suffices). -/
def findPhGo : Nat → Str → List Str
  | 0 => fun _ => []
  | fuel + 1 => fun s =>
      match s with
      | [] => []
      | '#' :: rest =>
          let ds := rest.takeWhile Char.isDigit
          if ds = [] then findPhGo fuel rest
          else ds :: findPhGo fuel (rest.drop ds.length)
      | _ :: rest => findPhGo fuel rest

/-- All placeholder occurrences `#<digits>` of the template in textual order
(the digit runs are maximal, as with the greedy `\#(\d+)` regex); the digit
string of each occurrence is returned. -/
def findPlaceholders (template : Str) : List Str :=
  findPhGo template.length template

/-- Worker for `replaceAll` (fuel-structural; one unit per character of the
subject, so `fuel = s.length` always suffices because the pattern used by
the source, `#` followed by digits, is never empty). -/
def replaceAllGo : Nat → Str → Str → Str → Str
  | 0 => fun _ _ s => s
  | fuel + 1 => fun pat repl s =>
      match s with
      | [] => []
      | c :: rest =>
          if !pat.isEmpty && pat.isPrefixOf (c :: rest) then
            repl ++ replaceAllGo fuel pat repl ((c :: rest).drop pat.length)
          else c :: replaceAllGo fuel pat repl rest

/-- Global replacement of a literal pattern, leftmost first, continuing after
each replacement: the semantics of `String.replace` with a global regex whose
pattern (`#` followed by digits) contains no metacharacter. -/
def replaceAll (pat repl s : Str) : Str :=
  replaceAllGo s.length pat repl s

/-- Interpret the built pattern string as a piece sequence: an inserted
`(.*?)` run is a capture group, a backslash escapes the next character into
a literal, anything else is a literal.  In every string produced by
`buildPattern`, parentheses and backslashes only arise escaped or inside an
inserted `(.*?)`, so this interpretation agrees with the JavaScript regex
reading of the pattern. -/
def parsePattern : Str → List Piece
  | '(' :: '.' :: '*' :: '?' :: ')' :: rest => .group :: parsePattern rest
  | '\\' :: c :: rest => .lit c :: parsePattern rest
  | c :: rest => .lit c :: parsePattern rest
  | [] => []

/-- Build the pattern string exactly as the source does: escape the template,
then, for each placeholder occurrence found (in textual order), globally
replace its text `#<digits>` by `(.*?)`. -/
def buildPattern (template : Str) : Str :=
  (findPlaceholders template).foldl
    (fun acc ds => replaceAll ('#' :: ds) ("(.*?)".toList) acc)
    (escapeRegExp template)

/-- The assignments `output[placeholders[i]] = matchResult[i + 1]` in
iteration order: the i-th placeholder key is paired with the i-th capture
(absent when the capture list is shorter). -/
def buildAssignments : List Str → List Str → List (Str × Option Str)
  | [], _ => []
  | key :: keys, caps => (key, caps.head?) :: buildAssignments keys caps.tail

/-- Reading `output[key]` after all assignments: the last assignment to the
key wins (JavaScript object property semantics); an unassigned key is
absent. -/
def lookupOutput (assignments : List (Str × Option Str)) (key : Str) : Option Str :=
  (assignments.reverse.find? (fun kv => kv.1 == key)).bind (fun kv => kv.2)

/-- The slot-extraction loop `new Array(8).fill(0).map((_, i) =>
output[#(i+1)]?.trim())`: read slots `#1` … `#8` and trim each present
value. -/
def resultSlots (assignments : List (Str × Option Str)) : List (Option Str) :=
  (List.range 8).map
    (fun i => (lookupOutput assignments ('#' :: [Nat.digitChar (i + 1)])).map trim)

/-- Pop trailing absent entries, as the source's final `while … pop()` loop
does. -/
def dropTrailingNone (l : List (Option Str)) : List (Option Str) :=
  (l.reverse.dropWhile (fun o => o.isNone)).reverse

/-- Outcome of `extractArgumentsWithOrder`: the thrown `No template provided`
error, the `null` no-match return, or a successful match with the recovered
slot values (a slot is `none` where the JavaScript array holds
`undefined`). -/
inductive ExtractResult where
  | invalidTemplate
  | noMatch
  | matched (args : List (Option Str))
  deriving DecidableEq

/-- The template matcher `extractArgumentsWithOrder(template, inputString)`. -/
def extractArgumentsWithOrder (template inputString : Str) : ExtractResult :=
  if template = [] then .invalidTemplate
  else if inputString = [] then .noMatch
  else
    match matchPieces (parsePattern (buildPattern template)) inputString with
    | none => .noMatch
    | some caps =>
        .matched (dropTrailingNone (resultSlots
          (buildAssignments ((findPlaceholders template).map (fun ds => '#' :: ds)) caps)))

/-- The `MacroAtom` state after construction.  Modelled from the spec: the
body subtree lives in the external tree-node base class and is represented
here by its serialization function `bodyToLatex` (the external
`serializeBody` collaborator applied to the body, as a function of the
export options). -/
structure MacroAtom where
  command : Str
  style : Style
  bodyToLatex : ToLatexOptions → Str
  captureSelection : Bool
  macroArgs : Option Str
  expand : Bool
  def_ : Str

/-- The constructor's options bag.  `args`, `expand` and `captureSelection`
are optional; `none` covers both `null` and `undefined` (the code treats
them alike). -/
structure MacroAtomOptions where
  expand : Option Bool := none
  args : Option Str
  bodyToLatex : ToLatexOptions → Str
  captureSelection : Option Bool := none
  style : Style
  def_ : Str

/-- The `MacroAtom` constructor: when `captureSelection` is not supplied it
defaults to `false` exactly when `options.args` is truthy; `expand` defaults
to `false`; `_macroArgs` is set to the literal `options.args`. -/
def MacroAtom.make (macroName : Str) (options : MacroAtomOptions) : MacroAtom :=
  { command := macroName
    style := options.style
    bodyToLatex := options.bodyToLatex
    captureSelection :=
      match options.captureSelection with
      | none => if strOptTruthy options.args then false else true
      | some b => b
    macroArgs := options.args
    expand := options.expand.getD false
    def_ := options.def_ }

/-- The persisted snapshot of a macro node.  Modelled from the spec: the
generic base `toJson` supplies the type tag, command, style and body (the
body again represented by its serialization function); optional fields are
`none` when omitted from the snapshot. -/
structure AtomJson where
  type : Str
  command : Str
  style : Style
  bodyToLatex : ToLatexOptions → Str
  expand : Option Bool := none
  captureSelection : Option Bool := none
  args : Option Str := none
  def_ : Str

/-- `MacroAtom.toJson`: write `expand` only when true, `captureSelection`
whenever it is defined (after construction it always is), `args` only when
truthy, and always `def`. -/
def MacroAtom.toJson (m : MacroAtom) : AtomJson :=
  { type := "macro".toList
    command := m.command
    style := m.style
    bodyToLatex := m.bodyToLatex
    expand := if m.expand then some true else none
    captureSelection := some m.captureSelection
    args := if strOptTruthy m.macroArgs then m.macroArgs else none
    def_ := m.def_ }

/-- `MacroAtom.fromJson`: hand the snapshot straight back to the
constructor (`new MacroAtom(json.command, json)`); no field is re-derived. -/
def MacroAtom.fromJson (json : AtomJson) : MacroAtom :=
  MacroAtom.make json.command
    { expand := json.expand
      args := json.args
      bodyToLatex := json.bodyToLatex
      captureSelection := json.captureSelection
      style := json.style
      def_ := json.def_ }

/-- `MacroAtom._serialize`: body serialization when both the caller requests
expansion and the node allows it, otherwise the command followed by the
argument encoding (or nothing when it is `null`). -/
def MacroAtom.serialize (m : MacroAtom) (options : ToLatexOptions) : Str :=
  if options.expandMacro && m.expand then m.bodyToLatex options
  else m.command ++ (m.macroArgs.getD [])

/-- `MacroAtom.applyStyle` forwards a restricted style to the generic
style-application routine of the base class; the returned value is the
style actually forwarded: only (truthy) `color` and `backgroundColor` are
copied, every other attribute is dropped. -/
def MacroAtom.applyStyle (_m : MacroAtom) (style : Style) : Style :=
  let base : Style := {}
  let s1 := if strOptTruthy style.color then { base with color := style.color } else base
  if strOptTruthy style.backgroundColor then
    { s1 with backgroundColor := style.backgroundColor }
  else s1

/-- The export options `reloadArgs` passes to `bodyToLatex`. -/
def mathExportOptions : ToLatexOptions :=
  { expandMacro := false, defaultMode := "math".toList }

/-- Re-encode recovered arguments: each slot becomes a brace-delimited
segment (`{}` for an absent or empty slot), concatenated in order. -/
def encodeRecoveredArgs (args : List (Option Str)) : Str :=
  (args.map (fun a => '{' :: (a.getD [] ++ ['}']))).flatten

/-- `MacroAtom.reloadArgs`: serialize the body without expansion in math
mode, run the template matcher, and overwrite `_macroArgs` with the
re-encoded arguments (`null` on no-match).  `none` models the
`No template provided` exception propagating to the caller. -/
def MacroAtom.reloadArgs (m : MacroAtom) : Option MacroAtom :=
  match extractArgumentsWithOrder m.def_ (m.bodyToLatex mathExportOptions) with
  | .invalidTemplate => none
  | .noMatch => some { m with macroArgs := none }
  | .matched args => some { m with macroArgs := some (encodeRecoveredArgs args) }

/-- Modelled from the spec: the parser expands a macro invocation by
substituting the literal argument texts into the definition template at its
placeholders (fuel-structural worker; `fuel = s.length` always suffices). -/
def expandGo : Nat → Str → List Str → Str
  | 0 => fun s _ => s
  | fuel + 1 => fun s args =>
      match s with
      | [] => []
      | '#' :: rest =>
          let ds := rest.takeWhile Char.isDigit
          if ds = [] then '#' :: expandGo fuel rest args
          else
            args.getD (ds.foldl (fun n c => 10 * n + (c.toNat - 48)) 0 - 1) [] ++
              expandGo fuel (rest.drop ds.length) args
      | c :: rest => c :: expandGo fuel rest args

/-- Modelled from the spec: expansion of a definition template at a list of
argument texts (`#n` becomes the n-th argument). -/
def expandTemplate (template : Str) (args : List Str) : Str :=
  expandGo template.length template args

/-- A node on the upward ownership chain: either a macro node (type tag
`macro` and a `MacroAtom` instance) or any other node variant, carrying its
type tag. -/
inductive TreeNode where
  | macroNode (m : MacroAtom)
  | otherNode (ty : Str)

/-- Projection used to state which chain nodes are macro nodes. -/
def TreeNode.asMacroAtom : TreeNode → Option MacroAtom
  | .macroNode m => some m
  | .otherNode _ => none

/-- The ancestor reconciliation walk `reloadParentsMacros(parent)`, applied
to the upward chain starting at the given node (nearest ancestor first,
root last).  It returns the updated chain together with the trace of the
macro atoms on which `reloadArgs` was invoked, in invocation order; `none`
models the `No template provided` exception escaping the loop. -/
def reloadParentsMacros : List TreeNode → Option (List TreeNode × List MacroAtom)
  | [] => some ([], [])
  | .macroNode m :: rest =>
      match m.reloadArgs with
      | none => none
      | some m' =>
          match reloadParentsMacros rest with
          | none => none
          | some (rest', calls) => some (.macroNode m' :: rest', m :: calls)
  | .otherNode ty :: rest =>
      match reloadParentsMacros rest with
      | none => none
      | some (rest', calls) => some (.otherNode ty :: rest', calls)

/-- Concrete macro atoms and ancestor chains used to instantiate the
properties on the spec's example trees. -/
def atomWalkA : MacroAtom :=
  MacroAtom.make "\\mA".toList
    { args := none, bodyToLatex := fun _ => "u".toList, style := {}, def_ := "a".toList }

/-- Second concrete macro atom for the ancestor-walk example. -/
def atomWalkB : MacroAtom :=
  MacroAtom.make "\\mB".toList
    { args := none, bodyToLatex := fun _ => "v".toList, style := {}, def_ := "b".toList }

/-- The upward chain seen when the walk is started at `plainNode`'s position
in the tree root → macroA → plainNode → macroB → editedLeaf: the node itself,
then its ancestors, nearest first. -/
def chainFromPlainNode : List TreeNode :=
  [.otherNode "plain".toList, .macroNode atomWalkA, .otherNode "root".toList]

/-- The upward chain seen when the walk is started at the edited leaf's
parent (macroB) in the same tree. -/
def chainFromLeafParent : List TreeNode :=
  [.macroNode atomWalkB, .otherNode "plain".toList, .macroNode atomWalkA,
   .otherNode "root".toList]

/-! ### Unfolding lemmas for the matcher -/

theorem matchPieces_nil (s : Str) :
    matchPieces [] s = if s = [] then some [] else none := rfl

theorem matchPieces_lit_nil (c : Char) (ps : List Piece) :
    matchPieces (.lit c :: ps) [] = none := rfl

theorem matchPieces_lit_cons (c : Char) (ps : List Piece) (c' : Char) (s' : Str) :
    matchPieces (.lit c :: ps) (c' :: s') =
      if c' = c then matchPieces ps s' else none := rfl

theorem matchPieces_group (ps : List Piece) (s : Str) :
    matchPieces (.group :: ps) s =
      (splitsOf s).findSome? (fun pr =>
        if pr.1.any isLineTerminator then none
        else (matchPieces ps pr.2).map (fun caps => pr.1 :: caps)) := rfl

/-! ### Matching runs of literal pieces -/

theorem matchPieces_lits (l : Str) (s : Str) :
    matchPieces (l.map Piece.lit) s = if s = l then some [] else none := by
  induction l generalizing s with
  | nil =>
    cases s with
    | nil => rfl
    | cons c s' => simp [matchPieces_nil]
  | cons c l ih =>
    cases s with
    | nil => simp [matchPieces_lit_nil]
    | cons c' s' =>
      simp only [List.map_cons, matchPieces_lit_cons, ih]
      by_cases hc : c' = c
      · subst hc
        by_cases hs : s' = l <;> simp [hs]
      · have hne : c' :: s' ≠ c :: l := by simp [hc]
        simp [hc, hne]

theorem matchPieces_lits_append (l : Str) (ps : List Piece) (s : Str) :
    matchPieces (l.map Piece.lit ++ ps) (l ++ s) = matchPieces ps s := by
  induction l with
  | nil => rfl
  | cons c l ih => simp [matchPieces_lit_cons, ih]

theorem matchPieces_lits_append_none (l : Str) (ps : List Piece) (s : Str)
    (h : l.isPrefixOf s = false) :
    matchPieces (l.map Piece.lit ++ ps) s = none := by
  induction l generalizing s with
  | nil => simp [List.isPrefixOf] at h
  | cons c l ih =>
    cases s with
    | nil => simp [matchPieces_lit_nil]
    | cons c' s' =>
      simp only [List.isPrefixOf_cons₂] at h
      simp only [List.map_cons, List.cons_append, matchPieces_lit_cons]
      by_cases hc : c' = c
      · subst hc
        simp only [beq_self_eq_true, Bool.true_and] at h
        simp [ih s' h]
      · simp [hc]

/-! ### Interpreting escaped templates -/

theorem parsePattern_lit_cons (c : Char) (rest : Str) (h1 : c ≠ '(') (h2 : c ≠ '\\') :
    parsePattern (c :: rest) = .lit c :: parsePattern rest := by
  rw [parsePattern.eq_def]
  split <;> simp_all

theorem parsePattern_escape (t : Str) : parsePattern (escapeRegExp t) = t.map Piece.lit := by
  induction t with
  | nil => rfl
  | cons c t ih =>
    rw [escapeRegExp]
    by_cases hc : regexSpecialChars.contains c = true
    · rw [if_pos hc,
        show parsePattern ('\\' :: c :: escapeRegExp t) = .lit c :: parsePattern (escapeRegExp t)
          from rfl,
        ih, List.map_cons]
    · have h1 : c ≠ '(' := by rintro rfl; exact hc (by decide)
      have h2 : c ≠ '\\' := by rintro rfl; exact hc (by decide)
      rw [if_neg hc, parsePattern_lit_cons c _ h1 h2, ih, List.map_cons]

/-! ### First-success characterisation of the non-greedy group search -/

theorem findSome?_splitsOf_first {α : Type} (g : Str × Str → Option α) (a b : Str) (v : α)
    (hfail : ∀ k, k < a.length → g (a.take k, a.drop k ++ b) = none)
    (hsucc : g (a, b) = some v) :
    (splitsOf (a ++ b)).findSome? g = some v := by
  induction a generalizing g with
  | nil =>
    cases b with
    | nil => simp [splitsOf, List.findSome?_cons, hsucc]
    | cons c b' => simp [splitsOf, List.findSome?_cons, hsucc]
  | cons c a' ih =>
    have h0 : g ([], c :: (a' ++ b)) = none := by
      have h := hfail 0 (by simp)
      simpa using h
    have hsp : splitsOf ((c :: a') ++ b)
        = ([], c :: (a' ++ b)) :: (splitsOf (a' ++ b)).map (fun pr => (c :: pr.1, pr.2)) := rfl
    rw [hsp, List.findSome?_cons, h0, List.findSome?_map]
    show (splitsOf (a' ++ b)).findSome? (g ∘ fun pr => (c :: pr.1, pr.2)) = some v
    apply ih (g ∘ fun pr => (c :: pr.1, pr.2))
    · intro k hk
      have h := hfail (k + 1) (by simpa using Nat.succ_lt_succ hk)
      simpa [Function.comp] using h
    · simpa [Function.comp] using hsucc

/-- When the first character of the separator does not occur in the capture,
the separator cannot match at any earlier position inside the capture. -/
theorem isPrefixOf_drop_false (ch : Char) (L' a : Str)
    (hc : ch ∉ a) (k : Nat) (hk : k < a.length) :
    ((ch :: L').isPrefixOf ((a ++ (ch :: L')).drop k)) = false := by
  have hlen : k < (a ++ (ch :: L')).length := by
    simp only [List.length_append]
    omega
  rw [List.drop_eq_getElem_cons hlen, List.getElem_append_left hk, List.isPrefixOf_cons₂]
  have hne : ch ≠ a[k] := fun h => hc (h ▸ List.getElem_mem hk)
  simp [hne]

/-- A prefix check against a concatenation only looks at the first part when
that part is at least as long as the candidate prefix. -/
theorem isPrefixOf_append_of_le_length (L X Y : Str) (hlen : L.length ≤ X.length)
    (h : L.isPrefixOf (X ++ Y) = true) : L.isPrefixOf X = true := by
  rw [List.isPrefixOf_iff_prefix] at h ⊢
  exact List.prefix_of_prefix_length_le h (List.prefix_append X Y) hlen

/-- The backtracking group search finds the intended split: if the capture
contains no line terminator and the following literal separator `L` does
not occur inside `capture ++ L` before its final position, the non-greedy
group captures exactly `a` and matching continues after the separator. -/
theorem matchPieces_group_sep (L a s' : Str) (ps : List Piece) (caps : List Str)
    (hnl : a.any isLineTerminator = false)
    (hsep : ∀ k, k < a.length → (L.isPrefixOf ((a ++ L).drop k)) = false)
    (hrest : matchPieces ps s' = some caps) :
    matchPieces (.group :: (L.map Piece.lit ++ ps)) (a ++ (L ++ s')) = some (a :: caps) := by
  rw [matchPieces_group]
  apply findSome?_splitsOf_first _ a (L ++ s') (a :: caps)
  · intro k hk
    have htake : (a.take k).any isLineTerminator = false := by
      rw [List.any_eq_false] at hnl ⊢
      exact fun x hx => hnl x (List.take_sublist k a |>.subset hx)
    have hpre : (L.isPrefixOf (a.drop k ++ (L ++ s'))) = false := by
      by_contra hcon
      rw [Bool.not_eq_false] at hcon
      rw [← List.append_assoc] at hcon
      have hle : L.length ≤ (a.drop k ++ L).length := by
        simp only [List.length_append]
        omega
      have := isPrefixOf_append_of_le_length L (a.drop k ++ L) s' hle hcon
      rw [← List.drop_append_of_le_length (Nat.le_of_lt hk)] at this
      rw [hsep k hk] at this
      exact Bool.false_ne_true this
    simp only [htake, Bool.false_eq_true, if_false,
      matchPieces_lits_append_none L ps (a.drop k ++ (L ++ s')) hpre, Option.map_none']
  · simp only [hnl, Bool.false_eq_true, if_false, matchPieces_lits_append, hrest,
      Option.map_some']

/-! ### Trimming -/

theorem dropWhile_of_prefix_fixed (p : Char → Bool) (l Y : Str)
    (hl : l.dropWhile p = l) (hY : Y <+: l) : Y.dropWhile p = Y := by
  cases Y with
  | nil => rfl
  | cons y ys =>
    obtain ⟨t, ht⟩ := hY
    by_cases hp : p y = true
    · exfalso
      rw [← ht, List.cons_append, List.dropWhile_cons, if_pos hp] at hl
      have hsub : List.Sublist (List.dropWhile p (ys ++ t)) (ys ++ t) :=
        List.dropWhile_sublist p
      have hle := hsub.length_le
      rw [hl] at hle
      simp only [List.length_cons] at hle
      omega
    · rw [List.dropWhile_cons, if_neg hp]

theorem trim_trim (l : Str) : trim (trim l) = trim l := by
  have hAfix : List.dropWhile isJsWhitespace (List.dropWhile isJsWhitespace l)
      = List.dropWhile isJsWhitespace l := List.dropWhile_idempotent isJsWhitespace l
  have h1 : List.dropWhile isJsWhitespace (List.dropWhile isJsWhitespace l).reverse
      <:+ (List.dropWhile isJsWhitespace l).reverse := List.dropWhile_suffix isJsWhitespace
  have hBpre :
      (List.dropWhile isJsWhitespace (List.dropWhile isJsWhitespace l).reverse).reverse
        <+: List.dropWhile isJsWhitespace l := by
    simpa only [List.reverse_reverse] using List.reverse_prefix.mpr h1
  have hBfix := dropWhile_of_prefix_fixed isJsWhitespace _ _ hAfix hBpre
  show ((List.dropWhile isJsWhitespace (trim l)).reverse.dropWhile isJsWhitespace).reverse
    = trim l
  have htl : List.dropWhile isJsWhitespace (trim l) = trim l := hBfix
  rw [htl]
  show ((trim l).reverse.dropWhile isJsWhitespace).reverse = trim l
  unfold trim
  rw [List.reverse_reverse, List.dropWhile_idempotent]

/-! ### Structure of the matched result slots -/

theorem dropTrailingNone_subset (l : List (Option Str)) : dropTrailingNone l ⊆ l := by
  intro x hx
  unfold dropTrailingNone at hx
  rw [List.mem_reverse] at hx
  have h := (List.dropWhile_sublist _).subset hx
  rwa [List.mem_reverse] at h

theorem resultSlots_mem (A : List (Str × Option Str)) (o : Option Str)
    (ho : o ∈ resultSlots A) : ∃ key, o = (lookupOutput A key).map trim := by
  unfold resultSlots at ho
  rw [List.mem_map] at ho
  obtain ⟨i, _, hoeq⟩ := ho
  exact ⟨_, hoeq.symm⟩

/-! ### Unfolding the matcher end to end -/

theorem extract_invalidTemplate_iff (t s : Str) :
    extractArgumentsWithOrder t s = .invalidTemplate ↔ t = [] := by
  constructor
  · intro h
    by_contra ht
    unfold extractArgumentsWithOrder at h
    rw [if_neg ht] at h
    by_cases hs : s = []
    · rw [if_pos hs] at h
      exact ExtractResult.noConfusion h
    · rw [if_neg hs] at h
      cases hm : matchPieces (parsePattern (buildPattern t)) s <;> rw [hm] at h <;>
        exact ExtractResult.noConfusion h
  · intro h
    unfold extractArgumentsWithOrder
    rw [if_pos h]

theorem extract_empty_body (t : Str) (ht : t ≠ []) :
    extractArgumentsWithOrder t [] = .noMatch := by
  unfold extractArgumentsWithOrder
  rw [if_neg ht, if_pos rfl]

theorem extract_no_placeholder (t s : Str) (hph : findPlaceholders t = []) (ht : t ≠ []) :
    extractArgumentsWithOrder t s = if s = t then .matched [] else .noMatch := by
  unfold extractArgumentsWithOrder
  rw [if_neg ht]
  by_cases hs : s = []
  · subst hs
    rw [if_pos rfl, if_neg (fun h => ht h.symm)]
  · rw [if_neg hs]
    have hbp : buildPattern t = escapeRegExp t := by
      simp [buildPattern, hph]
    rw [hbp, parsePattern_escape, matchPieces_lits]
    by_cases hst : s = t
    · rw [if_pos hst, if_pos hst, hph]
      rfl
    · rw [if_neg hst, if_neg hst]

/-! ### Last assignment wins in the placeholder table -/

theorem buildAssignments_mem (ks : List Str) (cs : List Str) (key : Str) (h : key ∈ ks) :
    ∃ v, (key, v) ∈ buildAssignments ks cs := by
  induction ks generalizing cs with
  | nil => cases h
  | cons k ks ih =>
    rcases List.mem_cons.mp h with rfl | h'
    · exact ⟨cs.head?, List.mem_cons_self _ _⟩
    · obtain ⟨v, hv⟩ := ih cs.tail h'
      exact ⟨v, List.mem_cons_of_mem _ hv⟩

theorem lookupOutput_last (keys : List Str) (caps : List Str) (key : Str) :
    lookupOutput (buildAssignments (keys ++ [key]) caps) key = caps[keys.length]? := by
  induction keys generalizing caps with
  | nil =>
    simp [buildAssignments, lookupOutput, List.find?, List.head?_eq_getElem?]
  | cons k keys' ih =>
    obtain ⟨v, hv⟩ := buildAssignments_mem (keys' ++ [key]) caps.tail key (by simp)
    unfold lookupOutput
    rw [show buildAssignments ((k :: keys') ++ [key]) caps
        = (k, caps.head?) :: buildAssignments (keys' ++ [key]) caps.tail from rfl]
    rw [List.reverse_cons, List.find?_append]
    have hsome : ((buildAssignments (keys' ++ [key]) caps.tail).reverse.find?
        (fun kv => kv.1 == key)).isSome := by
      rw [List.find?_isSome]
      exact ⟨(key, v), by simp [hv], by simp⟩
    obtain ⟨kv, hkv⟩ := Option.isSome_iff_exists.mp hsome
    rw [hkv, Option.or_some]
    have hih := ih caps.tail
    unfold lookupOutput at hih
    rw [hkv] at hih
    have h2 : kv.2 = caps.tail[keys'.length]? := hih
    show kv.2 = caps[(k :: keys').length]?
    rw [h2, List.getElem?_tail]
    rfl

/-! ### Matched slots are trimmed -/

theorem extract_matched_trimmed (t s : Str) (args : List (Option Str))
    (h : extractArgumentsWithOrder t s = .matched args) :
    ∀ o ∈ args, ∀ x, o = some x → trim x = x := by
  intro o ho x hx
  unfold extractArgumentsWithOrder at h
  by_cases ht : t = []
  · rw [if_pos ht] at h
    exact absurd h (by simp)
  · rw [if_neg ht] at h
    by_cases hs : s = []
    · rw [if_pos hs] at h
      exact absurd h (by simp)
    · rw [if_neg hs] at h
      cases hm : matchPieces (parsePattern (buildPattern t)) s with
      | none =>
        rw [hm] at h
        exact absurd h (by simp)
      | some caps =>
        rw [hm] at h
        injection h with h'
        subst h'
        have ho2 := dropTrailingNone_subset _ ho
        obtain ⟨key, hkey⟩ := resultSlots_mem _ o ho2
        rw [hkey] at hx
        rw [Option.map_eq_some'] at hx
        obtain ⟨v, _, hv2⟩ := hx
        rw [← hv2, trim_trim]

/-! ### Outcomes of reloadArgs -/

theorem reloadArgs_none_iff (m : MacroAtom) : m.reloadArgs = none ↔ m.def_ = [] := by
  unfold MacroAtom.reloadArgs
  constructor
  · intro h
    by_contra hd
    cases hm : extractArgumentsWithOrder m.def_ (m.bodyToLatex mathExportOptions) with
    | invalidTemplate => exact hd ((extract_invalidTemplate_iff _ _).mp hm)
    | noMatch => rw [hm] at h; exact Option.noConfusion h
    | matched args => rw [hm] at h; exact Option.noConfusion h
  · intro h
    rw [(extract_invalidTemplate_iff m.def_ _).mpr h]

theorem reloadArgs_matched (m : MacroAtom) (args : List (Option Str))
    (h : extractArgumentsWithOrder m.def_ (m.bodyToLatex mathExportOptions) = .matched args) :
    (m.reloadArgs).map (fun m' => m'.macroArgs) = some (some (encodeRecoveredArgs args)) := by
  unfold MacroAtom.reloadArgs
  rw [h]
  rfl

/-! ### The spec's two-argument example template -/

theorem extract_foo_template (a b : Str)
    (hna : a.any isLineTerminator = false) (hnb : b.any isLineTerminator = false)
    (hba : '}' ∉ a) (hbb : '}' ∉ b) :
    extractArgumentsWithOrder "\\foo{#1}{#2}".toList
      (expandTemplate "\\foo{#1}{#2}".toList [a, b])
      = .matched [some (trim a), some (trim b)] := by
  have hbody : expandTemplate "\\foo{#1}{#2}".toList [a, b]
      = "\\foo\x7b".toList ++ (a ++ ("\x7d\x7b".toList ++ (b ++ ("\x7d".toList ++ [])))) := rfl
  have hinner : matchPieces (.group :: ("\x7d".toList.map Piece.lit ++ []))
      (b ++ ("\x7d".toList ++ [])) = some [b] :=
    matchPieces_group_sep "\x7d".toList b [] [] [] hnb
      (fun k hk => isPrefixOf_drop_false '}' [] b hbb k hk) rfl
  have houter : matchPieces
      (.group :: ("\x7d\x7b".toList.map Piece.lit ++ (.group :: ("\x7d".toList.map Piece.lit ++ []))))
      (a ++ ("\x7d\x7b".toList ++ (b ++ ("\x7d".toList ++ [])))) = some [a, b] :=
    matchPieces_group_sep "\x7d\x7b".toList a (b ++ ("\x7d".toList ++ []))
      (.group :: ("\x7d".toList.map Piece.lit ++ [])) [b] hna
      (fun k hk => isPrefixOf_drop_false '}' ['{'] a hba k hk) hinner
  rw [hbody]
  unfold extractArgumentsWithOrder
  have hne : ¬ ("\\foo\x7b".toList ++ (a ++ ("\x7d\x7b".toList ++ (b ++ ("\x7d".toList ++ [])))) = []) :=
    fun hcon => List.cons_ne_nil '\\' _ hcon
  rw [if_neg (by decide), if_neg hne]
  rw [show parsePattern (buildPattern "\\foo{#1}{#2}".toList)
      = "\\foo\x7b".toList.map Piece.lit
        ++ (.group :: ("\x7d\x7b".toList.map Piece.lit
          ++ (.group :: ("\x7d".toList.map Piece.lit ++ [])))) from rfl]
  rw [matchPieces_lits_append "\\foo\x7b".toList _ _, houter]
  rfl

/-! ### The claimed properties -/

/-- C1 (counterexample): a Macro Node constructed with the non-empty
template `#1x#2` and literal argument encoding `{mxn}{p}`, whose body is
exactly the expansion `mxnxp` of those arguments, does NOT keep its
encoding under an immediate `reloadArgs()`: the non-greedy matcher re-splits
the body at the earliest `x` and stores `{m}{nxp}`. -/
theorem c1_roundtrip_counterexample :
    expandTemplate "#1x#2".toList ["mxn".toList, "p".toList] = "mxnxp".toList
    ∧ ((MacroAtom.make "\\amb".toList
        { args := some "{mxn}{p}".toList, bodyToLatex := fun _ => "mxnxp".toList,
          style := {}, def_ := "#1x#2".toList }).reloadArgs).map (fun m' => m'.macroArgs)
      = some (some "{m}{nxp}".toList)
    ∧ "{m}{nxp}".toList ≠ "{mxn}{p}".toList :=
  ⟨by decide, by decide, by decide⟩

/-- C1 (amended): for the spec's example template `\foo{#1}{#2}`, a Macro
Node constructed with literal arguments that are individually trimmed and
contain no closing brace and no line terminator, and whose body serializes
to the expansion of those arguments, keeps `argumentEncoding` unchanged
under an immediate `reloadArgs()`; ambiguous splits (see the
counterexample) and untrimmed arguments are the only failure sources. -/
theorem c1_roundtrip_amended (a b : Str) (st : Style) (f : ToLatexOptions → Str)
    (hna : a.any isLineTerminator = false) (hnb : b.any isLineTerminator = false)
    (hba : '}' ∉ a) (hbb : '}' ∉ b)
    (hta : trim a = a) (htb : trim b = b)
    (hf : f mathExportOptions = expandTemplate "\\foo{#1}{#2}".toList [a, b]) :
    ((MacroAtom.make "\\foo".toList
        { args := some ('{' :: (a ++ ('}' :: '{' :: (b ++ ['}'])))),
          bodyToLatex := f, style := st,
          def_ := "\\foo{#1}{#2}".toList }).reloadArgs).map (fun m' => m'.macroArgs)
      = some (some ('{' :: (a ++ ('}' :: '{' :: (b ++ ['}']))))) := by
  have hex : extractArgumentsWithOrder "\\foo{#1}{#2}".toList (f mathExportOptions)
      = .matched [some a, some b] := by
    rw [hf, extract_foo_template a b hna hnb hba hbb, hta, htb]
  have hres := reloadArgs_matched
    (MacroAtom.make "\\foo".toList
      { args := some ('{' :: (a ++ ('}' :: '{' :: (b ++ ['}'])))),
        bodyToLatex := f, style := st, def_ := "\\foo{#1}{#2}".toList })
    [some a, some b] hex
  rw [hres]
  simp [encodeRecoveredArgs, List.append_assoc]

/-- C1 (witness): the amended round trip at the concrete arguments
`x` and `y`. -/
theorem c1_roundtrip_witness :
    ((MacroAtom.make "\\foo".toList
        { args := some ('{' :: ("x".toList ++ ('}' :: '{' :: ("y".toList ++ ['}'])))),
          bodyToLatex := fun _ => "\\foo{x}{y}".toList, style := {},
          def_ := "\\foo{#1}{#2}".toList }).reloadArgs).map (fun m' => m'.macroArgs)
      = some (some ('{' :: ("x".toList ++ ('}' :: '{' :: ("y".toList ++ ['}']))))) :=
  c1_roundtrip_amended "x".toList "y".toList {} (fun _ => "\\foo{x}{y}".toList)
    (by decide) (by decide) (by decide) (by decide) (by decide) (by decide) (by decide)

/-- C2 (counterexample): in the tree root → macroA → plainNode → macroB →
editedLeaf, starting the walk at `plainNode`'s position reloads only the
ancestor macroA; macroB is a descendant of `plainNode`, not an ancestor, so
the trace is not the claimed [macroB, macroA]. -/
theorem c2_walk_counterexample :
    (reloadParentsMacros chainFromPlainNode).map (fun r => r.2.map (fun m => m.command))
      = some ["\\mA".toList]
    ∧ (some ["\\mA".toList] : Option (List Str)) ≠ some ["\\mB".toList, "\\mA".toList] :=
  ⟨by decide, by decide⟩

/-- C2 (amended): when the walk completes, the trace of `reloadArgs()`
invocations is exactly the macro-node ancestors of the starting node, each
exactly once, nearest first, and never a non-macro node; to obtain the
trace [macroB, macroA] in the example tree the walk must be started at the
edited leaf's parent, macroB. -/
theorem c2_walk_trace (chain : List TreeNode) (res : List TreeNode × List MacroAtom)
    (h : reloadParentsMacros chain = some res) :
    res.2 = chain.filterMap TreeNode.asMacroAtom := by
  induction chain generalizing res with
  | nil =>
    unfold reloadParentsMacros at h
    injection h with h'
    rw [← h']
    rfl
  | cons n rest ih =>
    cases n with
    | macroNode m =>
      unfold reloadParentsMacros at h
      cases hr : m.reloadArgs with
      | none =>
        rw [hr] at h
        exact absurd h (by simp)
      | some m' =>
        rw [hr] at h
        cases hrec : reloadParentsMacros rest with
        | none =>
          rw [hrec] at h
          exact absurd h (by simp)
        | some pr =>
          rw [hrec] at h
          obtain ⟨rest', calls⟩ := pr
          have h2 : some (TreeNode.macroNode m' :: rest', m :: calls) = some res := h
          injection h2 with h2'
          rw [← h2']
          show m :: calls = m :: rest.filterMap TreeNode.asMacroAtom
          have hcalls : calls = rest.filterMap TreeNode.asMacroAtom := ih (rest', calls) hrec
          rw [hcalls]
    | otherNode ty =>
      unfold reloadParentsMacros at h
      cases hrec : reloadParentsMacros rest with
      | none =>
        rw [hrec] at h
        exact absurd h (by simp)
      | some pr =>
        rw [hrec] at h
        obtain ⟨rest', calls⟩ := pr
        have h2 : some (TreeNode.otherNode ty :: rest', calls) = some res := h
        injection h2 with h2'
        rw [← h2']
        show calls = rest.filterMap TreeNode.asMacroAtom
        exact ih (rest', calls) hrec

/-- C2 (witness): on the chain starting at the edited leaf's parent the walk
succeeds, its trace is the macro projection of the chain, and that trace is
macroB then macroA. -/
theorem c2_walk_witness :
    (reloadParentsMacros chainFromLeafParent).map Prod.snd
      = some (chainFromLeafParent.filterMap TreeNode.asMacroAtom)
    ∧ (chainFromLeafParent.filterMap TreeNode.asMacroAtom).map (fun m => m.command)
      = ["\\mB".toList, "\\mA".toList] := by
  obtain ⟨r, hr⟩ : ∃ r, reloadParentsMacros chainFromLeafParent = some r := ⟨_, rfl⟩
  refine ⟨?_, by decide⟩
  rw [hr]
  exact congrArg some (c2_walk_trace chainFromLeafParent r hr)

/-- C3: the Template Matcher returns the `InvalidTemplate` error exactly
when the template is empty (also when reached through `reloadArgs()`), and
for a non-empty template an empty body yields the no-match value, not an
error. -/
theorem c3_invalid_template_iff_empty (t s : Str) (m : MacroAtom) :
    (extractArgumentsWithOrder t s = .invalidTemplate ↔ t = [])
    ∧ (m.reloadArgs = none ↔ m.def_ = [])
    ∧ (t ≠ [] → extractArgumentsWithOrder t [] = .noMatch) :=
  ⟨extract_invalidTemplate_iff t s, reloadArgs_none_iff m,
    fun ht => extract_empty_body t ht⟩

/-- C3 (witness): concrete instances of the three parts. -/
theorem c3_invalid_template_witness :
    extractArgumentsWithOrder "x".toList [] = .noMatch
    ∧ extractArgumentsWithOrder [] "y".toList = .invalidTemplate
    ∧ (MacroAtom.make "\\m".toList
        { args := none, bodyToLatex := fun _ => [], style := {},
          def_ := [] }).reloadArgs = none :=
  ⟨(c3_invalid_template_iff_empty "x".toList [] (MacroAtom.make "\\m".toList
      { args := none, bodyToLatex := fun _ => [], style := {}, def_ := [] })).2.2
      (by decide),
   (c3_invalid_template_iff_empty [] "y".toList (MacroAtom.make "\\m".toList
      { args := none, bodyToLatex := fun _ => [], style := {}, def_ := [] })).1.mpr rfl,
   (c3_invalid_template_iff_empty [] [] (MacroAtom.make "\\m".toList
      { args := none, bodyToLatex := fun _ => [], style := {}, def_ := [] })).2.1.mpr rfl⟩

/-- C4: a template without placeholders matches exactly its own literal
text, yielding an empty argument sequence; every other body is a no-match,
and `reloadArgs()` on such a non-matching body sets the argument encoding
to null. -/
theorem c4_no_placeholder_exact (t s : Str) (m : MacroAtom)
    (hph : findPlaceholders t = []) (ht : t ≠ []) :
    extractArgumentsWithOrder t t = .matched []
    ∧ (s ≠ t → extractArgumentsWithOrder t s = .noMatch)
    ∧ (m.def_ = t → m.bodyToLatex mathExportOptions ≠ t →
        (m.reloadArgs).map (fun m' => m'.macroArgs) = some none) := by
  refine ⟨?_, ?_, ?_⟩
  · rw [extract_no_placeholder t t hph ht, if_pos rfl]
  · intro hst
    rw [extract_no_placeholder t s hph ht, if_neg hst]
  · intro hdef hbody
    unfold MacroAtom.reloadArgs
    rw [hdef, extract_no_placeholder t _ hph ht, if_neg hbody]
    rfl

/-- C4 (witness): the spec's `constant` template example. -/
theorem c4_no_placeholder_witness :
    extractArgumentsWithOrder "constant".toList "constant".toList = .matched []
    ∧ extractArgumentsWithOrder "constant".toList "other".toList = .noMatch
    ∧ ((MacroAtom.make "\\c".toList
        { args := none, bodyToLatex := fun _ => "other".toList, style := {},
          def_ := "constant".toList }).reloadArgs).map (fun m' => m'.macroArgs)
      = some none := by
  have h := c4_no_placeholder_exact "constant".toList "other".toList
    (MacroAtom.make "\\c".toList
      { args := none, bodyToLatex := fun _ => "other".toList, style := {},
        def_ := "constant".toList })
    (by decide) (by decide)
  exact ⟨h.1, h.2.1 (by decide), h.2.2 rfl (by decide)⟩

/-- C5 (counterexample): a Macro Node constructed WITHOUT an explicit
`captureSelection` (it is defaulted from the presence of arguments) still
writes the field into its snapshot, so the snapshot does not omit it. -/
theorem c5_snapshot_counterexample :
    ((MacroAtom.make "\\f".toList
        { args := some "{x}".toList, bodyToLatex := fun _ => "x".toList, style := {},
          def_ := "\\g{#1}".toList }).toJson).captureSelection = some false
    ∧ some false ≠ (none : Option Bool) :=
  ⟨rfl, by decide⟩

/-- C5 (amended): the snapshot writes `expand` only when true, writes `args`
only when the encoding is truthy (omitting both null and the empty string),
and always writes `captureSelection` (after construction it is always
defined); reconstruction via `fromJson` takes every field, in particular
`args`, straight from the snapshot — never re-deriving it from the body —
and reproduces the node's command, template, expand flag, captureSelection
and body. -/
theorem c5_snapshot_amended (m : MacroAtom) (json : AtomJson) :
    ((m.toJson).expand = if m.expand then some true else none)
    ∧ ((m.toJson).args = if strOptTruthy m.macroArgs then m.macroArgs else none)
    ∧ ((m.toJson).captureSelection = some m.captureSelection)
    ∧ ((MacroAtom.fromJson json).macroArgs = json.args)
    ∧ ((MacroAtom.fromJson (m.toJson)).command = m.command)
    ∧ ((MacroAtom.fromJson (m.toJson)).def_ = m.def_)
    ∧ ((MacroAtom.fromJson (m.toJson)).expand = m.expand)
    ∧ ((MacroAtom.fromJson (m.toJson)).captureSelection = m.captureSelection)
    ∧ ((MacroAtom.fromJson (m.toJson)).bodyToLatex = m.bodyToLatex) := by
  refine ⟨rfl, rfl, rfl, rfl, rfl, rfl, ?_, rfl, rfl⟩
  cases hme : m.expand <;>
    simp [MacroAtom.fromJson, MacroAtom.make, MacroAtom.toJson, hme]

/-- C6: `_serialize` returns the body serialization exactly when both the
caller's expand option and the node's expand flag are true; otherwise it
returns the command followed by the argument encoding, which is the command
alone when the encoding is null. -/
theorem c6_serialize_cases (m : MacroAtom) (options : ToLatexOptions) :
    ( options.expandMacro = true → m.expand = true →
        m.serialize options = m.bodyToLatex options)
    ∧ ( options.expandMacro = false ∨ m.expand = false →
        m.serialize options = m.command ++ (m.macroArgs.getD []))
    ∧ (m.macroArgs = none → ( options.expandMacro && m.expand) = false →
        m.serialize options = m.command) := by
  unfold MacroAtom.serialize
  refine ⟨?_, ?_, ?_⟩
  · intro h1 h2
    simp [h1, h2]
  · intro h
    rcases h with h | h <;> simp [h]
  · intro h1 h2
    rw [h2]
    simp [h1]

/-- C6 (witness): concrete instances of the three serialization cases. -/
theorem c6_serialize_witness :
    (MacroAtom.make "\\f".toList
        { expand := some true, args := some "{x}".toList,
          bodyToLatex := fun _ => "body".toList, style := {},
          def_ := "\\g{#1}".toList }).serialize
      { expandMacro := true, defaultMode := "math".toList } = "body".toList
    ∧ (MacroAtom.make "\\f".toList
        { expand := some true, args := some "{x}".toList,
          bodyToLatex := fun _ => "body".toList, style := {},
          def_ := "\\g{#1}".toList }).serialize
      { expandMacro := false, defaultMode := "math".toList } = "\\f{x}".toList
    ∧ (MacroAtom.make "\\f".toList
        { expand := some false, args := none,
          bodyToLatex := fun _ => "body".toList, style := {},
          def_ := "\\g{#1}".toList }).serialize
      { expandMacro := true, defaultMode := "math".toList } = "\\f".toList := by
  refine ⟨?_, ?_, ?_⟩
  · have h := (c6_serialize_cases (MacroAtom.make "\\f".toList
      { expand := some true, args := some "{x}".toList,
        bodyToLatex := fun _ => "body".toList, style := {},
        def_ := "\\g{#1}".toList })
      { expandMacro := true, defaultMode := "math".toList }).1 rfl rfl
    rw [h]
    rfl
  · have h := (c6_serialize_cases (MacroAtom.make "\\f".toList
      { expand := some true, args := some "{x}".toList,
        bodyToLatex := fun _ => "body".toList, style := {},
        def_ := "\\g{#1}".toList })
      { expandMacro := false, defaultMode := "math".toList }).2.1 (Or.inl rfl)
    rw [h]
    decide
  · have h := (c6_serialize_cases (MacroAtom.make "\\f".toList
      { expand := some false, args := none,
        bodyToLatex := fun _ => "body".toList, style := {},
        def_ := "\\g{#1}".toList })
      { expandMacro := true, defaultMode := "math".toList }).2.2 rfl (by decide)
    rw [h]
    rfl

/-- C7: every recovered argument slot is trimmed of leading and trailing
whitespace; for the spec's example (template `\foo{#1}{#2}`, raw captures
` a ` and `b`) `reloadArgs()` produces the encoding `{a}{b}`. -/
theorem c7_arguments_trimmed (t s : Str) (args : List (Option Str))
    (h : extractArgumentsWithOrder t s = .matched args) :
    (∀ o ∈ args, ∀ x, o = some x → trim x = x)
    ∧ ((MacroAtom.make "\\foo".toList
        { args := some "{ a }{b}".toList,
          bodyToLatex := fun _ => "\\foo{ a }{b}".toList, style := {},
          def_ := "\\foo{#1}{#2}".toList }).reloadArgs).map (fun m' => m'.macroArgs)
      = some (some "{a}{b}".toList) :=
  ⟨extract_matched_trimmed t s args h, by decide⟩

/-- C7 (witness): a concrete matched extraction whose slots are all
trim-fixed, together with the example encoding. -/
theorem c7_arguments_trimmed_witness :
    trim "b".toList = "b".toList
    ∧ ((MacroAtom.make "\\foo".toList
        { args := some "{ a }{b}".toList,
          bodyToLatex := fun _ => "\\foo{ a }{b}".toList, style := {},
          def_ := "\\foo{#1}{#2}".toList }).reloadArgs).map (fun m' => m'.macroArgs)
      = some (some "{a}{b}".toList) := by
  have h := c7_arguments_trimmed "#1+#1".toList "a+b".toList [some "b".toList] (by decide)
  exact ⟨h.1 (some "b".toList) (by decide) "b".toList rfl, h.2⟩

/-- C8: `applyStyle` forwards only the (truthy) foreground and background
color to the generic style application; every other attribute of the style
object is dropped. -/
theorem c8_applyStyle_only_colors (m : MacroAtom) (style : Style) :
    (m.applyStyle style).fontWeight = none
    ∧ (m.applyStyle style).fontFamily = none
    ∧ (m.applyStyle style).fontShape = none
    ∧ (m.applyStyle style).fontSeries = none
    ∧ (m.applyStyle style).variant = none
    ∧ (m.applyStyle style).color = (if strOptTruthy style.color then style.color else none)
    ∧ (m.applyStyle style).backgroundColor
      = (if strOptTruthy style.backgroundColor then style.backgroundColor else none)
    ∧ m.applyStyle { color := some "red".toList, fontWeight := some "bold".toList }
      = { color := some "red".toList } := by
  unfold MacroAtom.applyStyle
  refine ⟨?_, ?_, ?_, ?_, ?_, ?_, ?_, by decide⟩ <;>
    by_cases hc : strOptTruthy style.color = true <;>
      by_cases hb : strOptTruthy style.backgroundColor = true <;>
        simp [hc, hb]

/-- C9: when `reloadArgs()` succeeds with an empty recovered-argument
sequence, it stores the empty string — not null — in the encoding, and the
snapshot nevertheless omits `args`, exactly as it does for null. -/
theorem c9_empty_sequence_empty_string (m : MacroAtom)
    (hph : findPlaceholders m.def_ = []) (ht : m.def_ ≠ [])
    (hbody : m.bodyToLatex mathExportOptions = m.def_) :
    (m.reloadArgs).map (fun m' => (m'.macroArgs, (m'.toJson).args))
      = some (some [], none) := by
  unfold MacroAtom.reloadArgs
  rw [hbody, extract_no_placeholder _ _ hph ht, if_pos rfl]
  rfl

/-- C9 (witness): the `constant` template with an unedited body. -/
theorem c9_empty_sequence_witness :
    ((MacroAtom.make "\\c".toList
        { args := none, bodyToLatex := fun _ => "constant".toList, style := {},
          def_ := "constant".toList }).reloadArgs).map
      (fun m' => (m'.macroArgs, (m'.toJson).args)) = some (some [], none) :=
  c9_empty_sequence_empty_string
    (MacroAtom.make "\\c".toList
      { args := none, bodyToLatex := fun _ => "constant".toList, style := {},
        def_ := "constant".toList })
    (by decide) (by decide) (by decide)

/-- C10: each textual occurrence of a repeated placeholder becomes its own
capture group, and the number-to-text table is written in occurrence order,
so the value returned for a repeated number is the capture of its last
occurrence: the last write to the key wins, and on `#1+#1` against `a+b`
the matcher returns the second capture `b`. -/
theorem c10_last_occurrence_wins (keys : List Str) (caps : List Str) (key : Str) :
    lookupOutput (buildAssignments (keys ++ [key]) caps) key = caps[keys.length]?
    ∧ extractArgumentsWithOrder "#1+#1".toList "a+b".toList
      = .matched [some "b".toList] :=
  ⟨lookupOutput_last keys caps key, by decide⟩
